import Mathlib

/-!
Verification of the elftree dependency-tree viewer.

The Go sources (main.go, tui.go) are shallowly embedded below.  Go strings
are modelled as lists of characters (GoStr), the filesystem that os.Stat
consults is an abstract oracle (FSys), byte data is modelled as lists of
natural numbers, Go runtime panics are modelled as an absent result
(Option none, or a dedicated panic constructor), and os.Exit after a
single fmt printout is modelled by the Except error path of the
one-shot build loop.
-/

namespace ElfTree

/-- Go strings, modelled as lists of characters. -/
abbrev GoStr := List Char

/-- strings.Split with a one-character separator (Go semantics:
splitting the empty string yields one empty field). -/
def splitOnC (sep : Char) : GoStr → List GoStr
  | [] => [[]]
  | c :: rest =>
    if c = sep then [] :: splitOnC sep rest
    else
      match splitOnC sep rest with
      | [] => [[c]]
      | p :: ps => (c :: p) :: ps

/-- strings.Join with a one-character separator. -/
def joinC (sep : Char) : List GoStr → GoStr
  | [] => []
  | [p] => p
  | p :: ps => p ++ sep :: joinC sep ps

/-- One element of Go path.Clean's lexical processing: the accumulator is the
stack of output elements in reverse order. -/
def cleanStep (rooted : Bool) (acc : List GoStr) (e : GoStr) : List GoStr :=
  if e = [] ∨ e = ['.'] then acc
  else if e = ['.', '.'] then
    match acc with
    | top :: rest => if top = ['.', '.'] then e :: top :: rest else rest
    | [] => if rooted then [] else [e]
  else e :: acc

/-- Go path.Clean: lexical path simplification (shortest equivalent path). -/
def goClean (p : GoStr) : GoStr :=
  match p with
  | [] => ['.']
  | c :: _ =>
    let rooted := c = '/'
    let acc := (splitOnC '/' p).foldl (cleanStep rooted) []
    let body := joinC '/' acc.reverse
    if rooted then '/' :: body
    else match body with
      | [] => ['.']
      | _ => body

/-- Go path.Join of two elements: empty elements are skipped and the
concatenation is cleaned; all-empty input yields the empty string. -/
def pathJoin (a b : GoStr) : GoStr :=
  match a, b with
  | [], [] => []
  | [], _ => goClean b
  | _, _ => goClean (a ++ '/' :: b)

/-! ## Dynamic section entries (type DynInfo in main.go) -/

/-- The value of a dynamic entry: a decoded string for the four string
tags, the raw integer otherwise (Go: interface holding string or uint64). -/
inductive DynVal where
  | str (s : GoStr)
  | num (n : Nat)
deriving DecidableEq

/-- One decoded dynamic entry (Go type DynInfo: tag and value). -/
structure DynInfo where
  tag : Nat
  val : DynVal
deriving DecidableEq

def dtNull : Nat := 0
def dtNeeded : Nat := 1
def dtSoname : Nat := 14
def dtRpath : Nat := 15
def dtRunpath : Nat := 29

/-! ## The library resolver (findLib in main.go) -/

/-- The filesystem oracle: statOk p is true exactly when os.Stat(p)
returns without error. -/
structure FSys where
  statOk : GoStr → Bool

/-- The string values of all entries of a given tag, in entry order
(the Go loops over info.dyns filtering on dyn.tag; dyn.val is always a
string for the RPATH and RUNPATH tags produced by readDynamic). -/
def tagDirs (tag : Nat) (dyns : List DynInfo) : List GoStr :=
  dyns.filterMap fun d =>
    if d.tag = tag then
      match d.val with
      | .str s => some s
      | .num _ => none
    else none

/-- RPATH directories of the requesting node; a nil parent contributes
nothing (the Go block is guarded by parent != nil). -/
def rpathDirs (parentDyns : Option (List DynInfo)) : List GoStr :=
  match parentDyns with
  | none => []
  | some ds => tagDirs dtRpath ds

def runpathDirs (parentDyns : Option (List DynInfo)) : List GoStr :=
  match parentDyns with
  | none => []
  | some ds => tagDirs dtRunpath ds

/-- One search block of findLib: probe each directory joined with the
name, returning the first candidate whose stat succeeds. -/
def searchIn (fs : FSys) (dirs : List GoStr) (nm : GoStr) : Option GoStr :=
  dirs.findSome? fun d =>
    let full := pathJoin d nm
    if fs.statOk full then some full else none

/-- findLib from main.go: a name containing a path separator is returned
unchanged; otherwise the five search blocks run in source order
(parent RPATH, LD_LIBRARY_PATH, parent RUNPATH, ld.so.conf directories,
default directories), and the empty string is returned when all miss. -/
def findLib (fs : FSys) (envlib : GoStr) (conflib deflib : List GoStr)
    (parentDyns : Option (List DynInfo)) (nm : GoStr) : GoStr :=
  if '/' ∈ nm then nm
  else
    match searchIn fs (rpathDirs parentDyns) nm with
    | some p => p
    | none =>
      match searchIn fs (splitOnC ':' envlib) nm with
      | some p => p
      | none =>
        match searchIn fs (runpathDirs parentDyns) nm with
        | some p => p
        | none =>
          match searchIn fs conflib nm with
          | some p => p
          | none =>
            match searchIn fs deflib nm with
            | some p => p
            | none => []

/-- Modelled from the spec: the resolver stated as a single probe over the
concatenation of the five directory lists in precedence order, returning
the first hit (empty on exhaustion).  Used only as the comparator for the
refinement theorem about findLib. -/
def specResolve (fs : FSys) (envlib : GoStr) (conflib deflib : List GoStr)
    (parentDyns : Option (List DynInfo)) (nm : GoStr) : GoStr :=
  if '/' ∈ nm then nm
  else
    (searchIn fs
      (rpathDirs parentDyns ++ splitOnC ':' envlib ++ runpathDirs parentDyns
        ++ conflib ++ deflib) nm).getD []

/-! ## The dynamic-section parser (readDynamic, readElfString in main.go) -/

/-- Little-endian word value of a byte list. -/
def leWord (bs : List Nat) : Nat :=
  bs.foldr (fun b acc => b + 256 * acc) 0

/-- Big-endian word value of a byte list. -/
def beWord (bs : List Nat) : Nat :=
  bs.foldl (fun acc b => acc * 256 + b) 0

def goWord (le : Bool) (bs : List Nat) : Nat :=
  if le then leWord bs else beWord bs

/-- Go slice data a b: the bytes in index range a to b, a runtime panic
(modelled none) when the upper bound exceeds the length. -/
def sliceGo (data : List Nat) (a b : Nat) : Option (List Nat) :=
  if a ≤ b ∧ b ≤ data.length then some ((data.drop a).take (b - a)) else none

/-- The (tag, value) word pair of entry i, decoded per class and byte
order exactly as the two slice expressions in readDynamic. -/
def readPair (cls64 le : Bool) (data : List Nat) (i : Nat) : Option (Nat × Nat) :=
  let w := if cls64 then 8 else 4
  match sliceGo data (i * 2 * w) ((i * 2 + 1) * w),
        sliceGo data ((i * 2 + 1) * w) ((i * 2 + 2) * w) with
  | some tb, some vb => some (goWord le tb, goWord le vb)
  | _, _ => none

/-- readElfString from main.go: scan from offset i for the first NUL byte
and return the bytes before it.  The Go loop indexes strtab with no bound
check, so running past the end is a runtime panic, modelled as none. -/
def readElfString (strtab : List Nat) (i : Nat) : Option (List Nat) :=
  match (strtab.drop i).findIdx? (· = 0) with
  | some n => some ((strtab.drop i).take n)
  | none => none

/-- The four tags whose value is a string-table offset in readDynamic's
switch (DT_NEEDED, DT_SONAME, DT_RPATH, DT_RUNPATH). -/
def strTags : List Nat := [dtNeeded, dtSoname, dtRpath, dtRunpath]

/-- The body of readDynamic's for loop over entries i, i+1, ... for the
given remaining count.  Each Go break inside the switch only leaves the
switch, so a DT_NULL entry contributes nothing but iteration continues.
A panic anywhere (slice out of range, string scan past the end) is the
none result. -/
def dynEntries (cls64 le : Bool) (data strtab : List Nat) :
    Nat → Nat → Option (List DynInfo)
  | _, 0 => some []
  | i, n + 1 =>
    match readPair cls64 le data i with
    | none => none
    | some (tag, val) =>
      if tag = dtNull then dynEntries cls64 le data strtab (i + 1) n
      else if tag ∈ strTags then
        match readElfString strtab val with
        | none => none
        | some s =>
          (dynEntries cls64 le data strtab (i + 1) n).map
            (⟨tag, .str (s.map Char.ofNat)⟩ :: ·)
      else
        (dynEntries cls64 le data strtab (i + 1) n).map
          (⟨tag, .num val⟩ :: ·)

/-- Outcome of readDynamic: -1 for a missing section or failed section
data read, a runtime panic, or the decoded entry list. -/
inductive RDyn where
  | noDyn
  | panicked
  | ok (dyns : List DynInfo)
deriving DecidableEq

/-- readDynamic from main.go.  The dynamic section is given as header
size, header entsize and raw data; the string table as raw data (none
models a failed Data() call).  count = size / entsize entries are
decoded; entsize zero is a Go division panic. -/
def readDynamic (cls64 le : Bool) (dynSec : Option (Nat × Nat × List Nat))
    (strtabData : Option (List Nat)) : RDyn :=
  match dynSec with
  | none => .noDyn
  | some (size, entsize, data) =>
    match strtabData with
    | none => .noDyn
    | some strtab =>
      if entsize = 0 then .panicked
      else
        match dynEntries cls64 le data strtab 0 (size / entsize) with
        | none => .panicked
        | some l => .ok l

/-! ## The dependency-graph builder (processDep and the main worklist) -/

/-- What opening and reading one binary yields, abstracting elf.Open,
f.Type validation, section lookup and ImportedLibraries. -/
structure BinInfo where
  isExecOrDyn : Bool
  hasDyn : Bool
  libs : List GoStr
deriving DecidableEq

/-- The world of binaries, keyed by dependency name; none models a
failing elf.Open. -/
abbrev Univ := GoStr → Option BinInfo

/-- One DepsNode, arena style: its name and the arena ids of its
children (ids index the node list of the build state). -/
structure BNode where
  name : GoStr
  childIds : List Nat
deriving DecidableEq

/-- The builder state: the node arena (pointer graph), the worklist
deps_list of arena ids, and the deps table keyed by name. -/
structure BState where
  nodes : List BNode
  work : List Nat
  deps : List (GoStr × BinInfo)
deriving DecidableEq

/-- The fatal build failures of processDep, each printed as one line
before os.Exit(1). -/
inductive BuildErr where
  | openFail (nm : GoStr)
  | invalidFormat (nm : GoStr)
  | missingSection (nm : GoStr)
deriving DecidableEq

/-- The single diagnostic line of each failure (content abbreviated; the
claims only count lines and the name carried). -/
def diagMsg : BuildErr → GoStr
  | .openFail nm => 'o' :: ':' :: nm
  | .invalidFormat nm => 'v' :: ':' :: nm
  | .missingSection nm => 's' :: ':' :: nm

def depNames (s : BState) : List GoStr :=
  s.deps.map Prod.fst

def initState (root : GoStr) : BState :=
  ⟨[⟨root, []⟩], [0], []⟩

/-- The successful part of one processDep call on the node with arena id
id and name nm: one child node per needed library is appended to the
arena (so the child ids start at the old arena length), attached to the
popped node, and prepended to the worklist ahead of the pending rest,
and the name's record is appended to the deps table. -/
def stepState (s : BState) (id : Nat) (rest : List Nat) (nm : GoStr)
    (b : BinInfo) : BState :=
  { nodes := s.nodes.set id ⟨nm, (List.range b.libs.length).map (· + s.nodes.length)⟩
      ++ b.libs.map fun l => BNode.mk l [],
    work := (List.range b.libs.length).map (· + s.nodes.length) ++ rest,
    deps := s.deps ++ [(nm, b)] }

/-- The worklist loop of main together with processDep, run for at most
fuel pops.  ok none is fuel exhaustion, ok (some s) is a finished build.
Per pop: the duplicate-name check, then open (openFail), the ET_EXEC or
ET_DYN check (invalidFormat), the readDynamic check (missingSection);
then the successful stepState. -/
def buildRun (u : Univ) : Nat → BState → Except BuildErr (Option BState)
  | 0, _ => .ok none
  | fuel + 1, s =>
    match s.work with
    | [] => .ok (some s)
    | id :: rest =>
      if (s.nodes[id]?.map BNode.name).getD [] ∈ depNames s then
        buildRun u fuel { s with work := rest }
      else
        match u ((s.nodes[id]?.map BNode.name).getD []) with
        | none => .error (.openFail ((s.nodes[id]?.map BNode.name).getD []))
        | some b =>
          if b.isExecOrDyn = false then
            .error (.invalidFormat ((s.nodes[id]?.map BNode.name).getD []))
          else if b.hasDyn = false then
            .error (.missingSection ((s.nodes[id]?.map BNode.name).getD []))
          else
            buildRun u fuel
              (stepState s id rest ((s.nodes[id]?.map BNode.name).getD []) b)

/-- The observable outcome of main: exit code, printed diagnostic lines,
and whether ShowWithTUI was entered (showTui defaults to true). -/
structure MainOut where
  exitCode : Nat
  diags : List GoStr
  tuiEntered : Bool
deriving DecidableEq

/-- main: seed the worklist with the root, run the build; a build failure
prints its one diagnostic and exits 1 before any interactive state
exists; a finished build enters the TUI. -/
def mainRun (u : Univ) (fuel : Nat) (root : GoStr) : MainOut :=
  match buildRun u fuel (initState root) with
  | .error e => ⟨1, [diagMsg e], false⟩
  | .ok none => ⟨0, [], false⟩
  | .ok (some _) => ⟨0, [], true⟩

/-- The dependency tree extracted from the arena (child ids always point
past their parent, so fuel bounds the depth). -/
inductive DTree where
  | mk (name : GoStr) (children : List DTree)

def DTree.name : DTree → GoStr
  | .mk n _ => n

def DTree.children : DTree → List DTree
  | .mk _ c => c

def toDTree (nodes : List BNode) : Nat → Nat → DTree
  | 0, _ => .mk [] []
  | fuel + 1, id =>
    match nodes[id]? with
    | none => .mk [] []
    | some n => .mk n.name (n.childIds.map (toDTree nodes fuel))

/-! ## The presentation tree (tui.go) -/

/-- TreeItem of tui.go: folded flag, visible-descendant total, and the
child list (the Go first-child and next-sibling pointers).  The node
payload is irrelevant to the navigation claims and omitted. -/
inductive TItem where
  | mk (folded : Bool) (total : Int) (children : List TItem)

def TItem.folded : TItem → Bool
  | .mk f _ _ => f

def TItem.total : TItem → Int
  | .mk _ t _ => t

def TItem.children : TItem → List TItem
  | .mk _ _ c => c

mutual
/-- makeDepsItems from tui.go: every item unfolded, total = number of
children plus the sum of the children's totals. -/
def makeDepsItems : DTree → TItem
  | .mk _ cs =>
    let l := mdChildren cs
    .mk false ((l.foldl (fun a c => a + c.total) (l.length : Int))) l

def mdChildren : List DTree → List TItem
  | [] => []
  | c :: cs => makeDepsItems c :: mdChildren cs
end

/-- The total a node's children contribute when expanded: the Go loop
adds c.total + 1 for each child c. -/
def childSum (cs : List TItem) : Int :=
  cs.foldl (fun a c => a + c.total + 1) 0

/-- expand from tui.go applied to the node itself: the returned delta is
what the Go loop adds to every ancestor's total (the node's new total).
A node that is not folded or has no child returns unchanged with no
ancestor update. -/
def expandN : TItem → TItem × Int
  | .mk f t cs =>
    match f, cs with
    | false, _ => (.mk false t cs, 0)
    | true, [] => (.mk true t [], 0)
    | true, c :: rest =>
      let t1 := (c :: rest).foldl (fun a x => a + x.total + 1) t
      (.mk false t1 (c :: rest), t1)

/-- fold from tui.go applied to the node itself: every ancestor loses the
node's current total, which is then zeroed. -/
def foldN : TItem → TItem × Int
  | .mk f t cs =>
    match f, cs with
    | true, _ => (.mk true t cs, 0)
    | false, [] => (.mk false t [], 0)
    | false, c :: rest => (.mk true 0 (c :: rest), -t)

/-- toggle applied at the node addressed by a child-index path: the
second component is the delta that the Go ancestor loops add to every
node on the path (an invalid path toggles nothing). -/
def toggleAt : TItem → List Nat → TItem × Int
  | x, [] =>
    match x with
    | .mk true _ _ => expandN x
    | .mk false _ _ => foldN x
  | .mk f t cs, i :: p =>
    match cs[i]? with
    | none => (.mk f t cs, 0)
    | some c =>
      let r := toggleAt c p
      (.mk f (t + r.2) (cs.set i r.1), r.2)

/-- The node addressed by a child-index path. -/
def getAt : TItem → List Nat → Option TItem
  | t, [] => some t
  | t, i :: p =>
    match t.children[i]? with
    | none => none
    | some c => getAt c p

mutual
/-- The visible-row-total invariant of the view layer: a folded item has
total 0, an unfolded item's total is the sum over children of one plus
the child's total; recursively at every node. -/
def invB : TItem → Bool
  | .mk f t cs =>
    (if f then t == 0 else t == childSum cs) && invBs cs

def invBs : List TItem → Bool
  | [] => true
  | c :: cs => invB c && invBs cs
end

/-- A path addresses a visible row: every strict ancestor on the path is
unfolded (the row itself may be folded). -/
def visibleB : TItem → List Nat → Bool
  | _, [] => true
  | .mk f _ cs, i :: p =>
    match cs[i]? with
    | none => false
    | some c => !f && visibleB c p

mutual
/-- The descent loop of prevItem from a node: repeatedly step to the
last child while the current node has children and is not folded;
returns the relative path walked. -/
def lastVis : TItem → List Nat
  | .mk f _ cs => if f then [] else lastVisAux 0 cs

def lastVisAux : Nat → List TItem → List Nat
  | _, [] => []
  | i, [c] => i :: lastVis c
  | i, _ :: c :: rest => lastVisAux (i + 1) (c :: rest)
end

/-- The climb of nextItem over the reversed path: return the next
sibling of the first node (itself included) that has one; nil at the
root. -/
def climbNextRev (root : TItem) : List Nat → Option (List Nat)
  | [] => none
  | i :: rp =>
    match getAt root rp.reverse with
    | none => none
    | some par =>
      if i + 1 < par.children.length then some (rp.reverse ++ [i + 1])
      else climbNextRev root rp

/-- nextItem from tui.go: first child when unfolded with children, else
climb to the nearest next sibling of an ancestor or self. -/
def nextItem (root : TItem) (pos : List Nat) : Option (List Nat) :=
  match getAt root pos with
  | none => none
  | some x =>
    match x.children with
    | [] => climbNextRev root pos.reverse
    | _ :: _ =>
      if x.folded then climbNextRev root pos.reverse
      else some (pos ++ [0])

/-- prevItem from tui.go: the parent when there is no previous sibling
(nil at the root), else the last visible descendant of the previous
sibling. -/
def prevItem (root : TItem) (pos : List Nat) : Option (List Nat) :=
  match pos.reverse with
  | [] => none
  | 0 :: rp => some rp.reverse
  | (j + 1) :: rp =>
    let sib := rp.reverse ++ [j]
    match getAt root sib with
    | none => none
    | some s => some (sib ++ lastVis s)

/-! ## The viewport (TreeView paging, tui.go) -/

/-- The scroll state of a TreeView pane: cursor row idx, first shown row
off, pane height rows, and the root item's total (Curr and Top are the
items at rows idx and off and track these indices by repeated
nextItem/prevItem steps). -/
structure TView where
  idx : Int
  off : Int
  rows : Int
  total : Int
deriving DecidableEq

/-- PageDown from tui.go: snap to the bottom edge of the current page
when not already there; otherwise advance a full page (clamped to the
last row) and scroll so the cursor is the last shown row. -/
def PageDown (tv : TView) : TView :=
  let bottom := tv.off + tv.rows - 1
  let bottom := if bottom > tv.total then tv.total else bottom
  if tv.idx ≠ bottom then { tv with idx := bottom }
  else
    let idx1 := tv.idx + tv.rows
    let idx1 := if idx1 > tv.total then tv.total else idx1
    let off1 := if idx1 - tv.off ≥ tv.rows then idx1 - tv.rows + 1 else tv.off
    { tv with idx := idx1, off := off1 }

/-! ## Per-library detail-view state (saveInfoView / restoreInfoView) -/

/-- FileInfo of tui.go: the detail sub-tree root and the pane's saved
viewport (a nil Root is the zero value of an absent map entry). -/
structure FileInfoC where
  root? : Option TItem
  idx : Int
  off : Int
  pos : Int

/-- The four per-mode caches finfo, yinfo, dinfo, sinfo as total maps
(a Go map read of an absent key yields the zero FileInfo). -/
structure InfoMaps where
  finfo : GoStr → FileInfoC
  yinfo : GoStr → FileInfoC
  dinfo : GoStr → FileInfoC
  sinfo : GoStr → FileInfoC

def modeFile : Nat := 0
def modeSymbol : Nat := 1
def modeDynamic : Nat := 2
def modeSection : Nat := 3

/-- The viewport fields of the info pane (iv.off, iv.idx, iv.pos and its
Root). -/
structure IView where
  root? : Option TItem
  idx : Int
  off : Int
  pos : Int

/-- saveInfoView from tui.go, transcribed: each Go map read copies the
struct value, the three field assignments mutate that local copy, and
nothing is ever stored back, so the returned maps are the input maps. -/
def saveInfoView (m : InfoMaps) (currName : GoStr) (iv : IView) : InfoMaps :=
  let info := m.finfo currName
  let info := { info with off := iv.off, idx := iv.idx, pos := iv.pos }
  let info := m.yinfo currName
  let info := { info with off := iv.off, idx := iv.idx, pos := iv.pos }
  let info := m.dinfo currName
  let _ := { info with off := iv.off, idx := iv.idx, pos := iv.pos }
  m

/-- restoreInfoView from tui.go: pick the current mode's cache entry for
the selected name and install its Root and viewport into the info pane
(an unknown mode leaves the zero FileInfo). -/
def restoreInfoView (m : InfoMaps) (mode : Nat) (currName : GoStr)
    (iv : IView) : IView :=
  let info :=
    if mode = modeFile then m.finfo currName
    else if mode = modeSymbol then m.yinfo currName
    else if mode = modeDynamic then m.dinfo currName
    else if mode = modeSection then m.sinfo currName
    else ⟨none, 0, 0, 0⟩
  { iv with root? := info.root?, off := info.off, idx := info.idx,
            pos := info.pos }

/-! ## Claims about paging and the viewport cache -/

/-- C8: in a fully expanded tree of 100 visible rows (root total 99)
shown in a 20-row viewport with the cursor on row 0 and the viewport at
the top, the first page-down moves the selection to row 19 leaving the
viewport unscrolled, and a second page-down moves the selection to
row 39 and scrolls the viewport to first row 20. -/
theorem claim_C8 :
    PageDown ⟨0, 0, 20, 99⟩ = ⟨19, 0, 20, 99⟩
      ∧ PageDown ⟨19, 0, 20, 99⟩ = ⟨39, 20, 20, 99⟩ := by
  decide

/-- C5: contrary to the claim, saveInfoView never stores anything: every
Go map read copies the struct and the assignments mutate the copy, so
the cache maps are returned unchanged, and a restore after a save still
sees the original (zero) viewport rather than the one just saved (here a
viewport with cursor row 5 is saved and row 0 comes back). -/
theorem claim_C5 :
    (∀ (m : InfoMaps) (nm : GoStr) (iv : IView),
      saveInfoView m nm iv = m)
    ∧ (restoreInfoView
        (saveInfoView
          ⟨fun _ => ⟨none, 0, 0, 0⟩, fun _ => ⟨none, 0, 0, 0⟩,
           fun _ => ⟨none, 0, 0, 0⟩, fun _ => ⟨none, 0, 0, 0⟩⟩
          ['l'] ⟨none, 5, 2, 3⟩)
        modeFile ['l'] ⟨none, 5, 2, 3⟩).idx = 0 := by
  exact ⟨fun m nm iv => rfl, rfl⟩

/-! ## Claims about the dynamic-section parser -/

/-- Dynamic-section bytes holding the 64-bit little-endian pairs
(DT_NULL, 0) and (6, 42). -/
def nullThenSymtab : List Nat :=
  [0, 0, 0, 0, 0, 0, 0, 0, 0, 0, 0, 0, 0, 0, 0, 0,
   6, 0, 0, 0, 0, 0, 0, 0, 42, 0, 0, 0, 0, 0, 0, 0]

/-- C3 counterexample: the first (tag, value) pair of this section is a
null tag, yet the pair after it still contributes a DynamicEntry — the
Go break only leaves the switch, so decoding does not stop at DT_NULL
and the produced sequence is not empty. -/
theorem claim_C3_cex :
    readPair true true nullThenSymtab 0 = some (dtNull, 0)
      ∧ readDynamic true true (some (32, 16, nullThenSymtab)) (some [])
          = .ok [⟨6, .num 42⟩] := by
  decide

/-- C3 (amended): a null-tag pair contributes no entry but does not stop
the scan — decoding continues with the following pairs exactly as if the
null pair were absent, so entries after the first null-tag pair still
contribute. -/
theorem claim_C3 (cls64 le : Bool) (data strtab : List Nat) (i n v : Nat)
    (h : readPair cls64 le data i = some (dtNull, v)) :
    dynEntries cls64 le data strtab i (n + 1)
      = dynEntries cls64 le data strtab (i + 1) n := by
  rw [dynEntries, h]
  simp

theorem claim_C3_w :
    readPair true true nullThenSymtab 0 = some (dtNull, 0)
      ∧ dynEntries true true nullThenSymtab [] 0 2
          = dynEntries true true nullThenSymtab [] 1 1 :=
  ⟨by decide, claim_C3 true true nullThenSymtab [] 0 1 0 (by decide)⟩

/-- Dynamic-section bytes holding the single 64-bit little-endian pair
(DT_NEEDED, 100), an out-of-range string-table offset. -/
def neededBadOffset : List Nat :=
  [1, 0, 0, 0, 0, 0, 0, 0, 100, 0, 0, 0, 0, 0, 0, 0]

/-- C4 counterexample: a needed-library entry whose value 100 lies
outside the two-byte string table makes the parser hit the unchecked
strtab index — a runtime panic, not a MalformedBinary error value. -/
theorem claim_C4_cex :
    readDynamic true true (some (16, 16, neededBadOffset)) (some [65, 0])
      = .panicked := by
  decide

/-- readElfString has no bounds check: an offset at or past the end of
the table scans no byte and the Go loop index goes out of range. -/
theorem readElfString_oob (strtab : List Nat) (off : Nat)
    (h : strtab.length ≤ off) : readElfString strtab off = none := by
  rw [readElfString, List.drop_eq_nil_of_le h]
  rfl

/-- C4 (amended): when any decoded pair carries a needed-library, RPATH,
RUNPATH or soname tag whose value is at or past the end of the string
table, the whole decode is a runtime panic (index out of range, modelled
as none); decoding is not total and no MalformedBinary error value
exists in the code. -/
theorem claim_C4 (cls64 le : Bool) (data strtab : List Nat) :
    ∀ (n i k tag val : Nat), k < n →
    readPair cls64 le data (i + k) = some (tag, val) →
    tag ∈ strTags → strtab.length ≤ val →
    dynEntries cls64 le data strtab i n = none := by
  intro n
  induction n with
  | zero => omega
  | succ m ih =>
    intro i k tag val hk hpair htag hoff
    match k with
    | 0 =>
      simp only [Nat.add_zero] at hpair
      have htag4 : tag = 1 ∨ tag = 14 ∨ tag = 15 ∨ tag = 29 := by
        simpa [strTags, dtNeeded, dtSoname, dtRpath, dtRunpath] using htag
      have htag0 : ¬ tag = dtNull := by
        rcases htag4 with h | h | h | h <;> simp [h, dtNull]
      rw [dynEntries, hpair]
      simp [htag0, htag, readElfString_oob strtab val hoff]
    | k' + 1 =>
      have hrest : dynEntries cls64 le data strtab (i + 1) m = none := by
        apply ih (i + 1) k' tag val (by omega) _ htag hoff
        rw [show i + 1 + k' = i + (k' + 1) by omega]
        exact hpair
      rw [dynEntries]
      cases hp : readPair cls64 le data i with
      | none => rfl
      | some tv =>
        obtain ⟨t, v⟩ := tv
        by_cases ht0 : t = dtNull
        · simp [ht0, hrest]
        · by_cases hts : t ∈ strTags
          · cases hs : readElfString strtab v with
            | none => simp [ht0, hts, hs]
            | some s => simp [ht0, hts, hs, hrest]
          · simp [ht0, hts, hrest]

theorem claim_C4_w :
    dynEntries true true neededBadOffset [65, 0] 0 1 = none :=
  claim_C4 true true neededBadOffset [65, 0] 1 0 0 dtNeeded 100
    (by decide) (by decide) (by decide) (by decide)

/-! ## Claims about the library resolver -/

theorem splitOnC_no_sep (sep : Char) :
    ∀ s : GoStr, sep ∉ s → splitOnC sep s = [s] := by
  intro s
  induction s with
  | nil => intro _; rfl
  | cons c rest ih =>
    intro h
    have hc : ¬ c = sep := fun he => h (he ▸ List.mem_cons_self c rest)
    have hr : sep ∉ rest := fun hm => h (List.mem_cons_of_mem c hm)
    rw [splitOnC, if_neg hc, ih hr]

/-- Joining a separator-free name onto the empty directory yields the
name itself: Go path.Join of an empty first element cleans the second,
and path.Clean is the identity on a nonempty single element. -/
theorem pathJoin_nil_noslash (nm : GoStr) (h : '/' ∉ nm) :
    pathJoin [] nm = nm := by
  match nm with
  | [] => rfl
  | c :: rest =>
    have hc : ¬ c = '/' := fun he => h (he ▸ List.mem_cons_self c rest)
    show goClean (c :: rest) = c :: rest
    rw [goClean]
    simp only [hc, if_false]
    rw [splitOnC_no_sep '/' (c :: rest) h]
    by_cases hdot : c :: rest = ['.']
    · simp [cleanStep, hdot, joinC]
    · by_cases hdd : c :: rest = ['.', '.']
      · simp [cleanStep, hdd, joinC]
      · simp [cleanStep, hdot, hdd, joinC]

theorem searchIn_append (fs : FSys) (l₁ l₂ : List GoStr) (nm : GoStr) :
    searchIn fs (l₁ ++ l₂) nm = (searchIn fs l₁ nm).or (searchIn fs l₂ nm) := by
  unfold searchIn
  exact List.findSome?_append

theorem searchIn_hit (fs : FSys) (nm : GoStr) :
    ∀ dirs : List GoStr,
      (∃ d ∈ dirs, fs.statOk (pathJoin d nm) = true) →
      ∃ d ∈ dirs, searchIn fs dirs nm = some (pathJoin d nm) := by
  intro dirs
  induction dirs with
  | nil => rintro ⟨d, hd, _⟩; cases hd
  | cons d₀ rest ih =>
    intro hex
    by_cases h0 : fs.statOk (pathJoin d₀ nm) = true
    · refine ⟨d₀, List.mem_cons_self d₀ rest, ?_⟩
      rw [searchIn, List.findSome?_cons]
      simp [h0]
    · obtain ⟨d, hd, hok⟩ := hex
      have hd' : d ∈ rest := by
        rcases List.mem_cons.mp hd with he | hm
        · exact absurd (he ▸ hok) h0
        · exact hm
      obtain ⟨d₁, hd₁, hs⟩ := ih ⟨d, hd', hok⟩
      refine ⟨d₁, List.mem_cons_of_mem d₀ hd₁, ?_⟩
      rw [searchIn, List.findSome?_cons]
      simp only [h0, if_false]
      rw [searchIn] at hs
      simpa using hs

/-- C1: findLib refines the spec's single ordered probe — a name with a
path separator is returned unchanged with no search, otherwise the five
directory lists are probed in order (direct requester RPATH, the
colon-split environment value, direct requester RUNPATH, the expanded
configuration directories, the default directories) stopping at the
first candidate whose stat succeeds; in particular when some RPATH
directory holds the library the result is that RPATH path, whatever the
RUNPATH directories hold. -/
theorem claim_C1 (fs : FSys) (envlib : GoStr) (conflib deflib : List GoStr)
    (pd : Option (List DynInfo)) (nm : GoStr) :
    (findLib fs envlib conflib deflib pd nm
        = specResolve fs envlib conflib deflib pd nm)
    ∧ ('/' ∈ nm → findLib fs envlib conflib deflib pd nm = nm)
    ∧ ((∃ d ∈ rpathDirs pd, fs.statOk (pathJoin d nm) = true) →
        '/' ∉ nm →
        ∃ d ∈ rpathDirs pd,
          findLib fs envlib conflib deflib pd nm = pathJoin d nm) := by
  refine ⟨?_, ?_, ?_⟩
  · unfold findLib specResolve
    by_cases h : '/' ∈ nm
    · simp [h]
    · simp only [h, if_false]
      rw [searchIn_append, searchIn_append, searchIn_append, searchIn_append]
      cases searchIn fs (rpathDirs pd) nm <;>
        cases searchIn fs (splitOnC ':' envlib) nm <;>
          cases searchIn fs (runpathDirs pd) nm <;>
            cases searchIn fs conflib nm <;>
              cases searchIn fs deflib nm <;>
                simp [Option.or]
  · intro h
    unfold findLib
    simp [h]
  · intro hex h
    obtain ⟨d, hd, hs⟩ := searchIn_hit fs nm (rpathDirs pd) hex
    refine ⟨d, hd, ?_⟩
    unfold findLib
    simp only [h, if_false]
    rw [hs]

theorem claim_C1_w :
    ('/' ∈ ['a', '/', 'b'] ∧
      findLib ⟨fun _ => true⟩ [] [] [] none ['a', '/', 'b'] = ['a', '/', 'b'])
    ∧ (∃ d ∈ rpathDirs (some [⟨dtRpath, .str ['r']⟩, ⟨dtRunpath, .str ['u']⟩]),
        findLib ⟨fun _ => true⟩ [] [] []
          (some [⟨dtRpath, .str ['r']⟩, ⟨dtRunpath, .str ['u']⟩]) ['x']
          = pathJoin d ['x']) := by
  constructor
  · exact ⟨by decide, (claim_C1 ⟨fun _ => true⟩ [] [] [] none ['a', '/', 'b']).2.1 (by decide)⟩
  · exact (claim_C1 ⟨fun _ => true⟩ [] [] []
      (some [⟨dtRpath, .str ['r']⟩, ⟨dtRunpath, .str ['u']⟩]) ['x']).2.2
      (by refine ⟨['r'], by decide, by decide⟩) (by decide)

/-- C10: with an empty (or unset) library-search environment value the
environment block still probes exactly one candidate, the name joined
with the one empty directory the colon split yields — the bare name,
hence a path relative to the working directory; when the RPATH block
misses and that bare name stats, it is what findLib returns, whatever
the RUNPATH, configuration and default directories hold. -/
theorem claim_C10 (fs : FSys) (conflib deflib : List GoStr)
    (pd : Option (List DynInfo)) (nm : GoStr) (h : '/' ∉ nm) :
    ((splitOnC ':' ([] : GoStr)).map (fun d => pathJoin d nm) = [nm])
    ∧ (searchIn fs (rpathDirs pd) nm = none →
        fs.statOk nm = true →
        findLib fs [] conflib deflib pd nm = nm) := by
  constructor
  · simp [splitOnC, pathJoin_nil_noslash nm h]
  · intro hrp hok
    unfold findLib
    simp only [h, if_false]
    rw [hrp]
    have : searchIn fs (splitOnC ':' ([] : GoStr)) nm = some nm := by
      rw [searchIn]
      show List.findSome? _ [[]] = some nm
      rw [List.findSome?_cons]
      simp [pathJoin_nil_noslash nm h, hok]
    rw [this]

theorem claim_C10_w :
    findLib ⟨fun s => s = ['x']⟩ [] [['c']] [['d']] none ['x'] = ['x'] :=
  (claim_C10 ⟨fun s => s = ['x']⟩ [['c']] [['d']] none ['x']
    (by decide)).2 (by decide) (by decide)

/-! ## Claims about the dependency-graph builder -/

/-- The build-loop invariant: the deps table has pairwise distinct keys,
worklist ids index the arena, every table entry names an arena node and
records a successfully opened, valid, dynamically linked binary, and
every arena node is either already tabled or still pending. -/
def buildInv (u : Univ) (s : BState) : Prop :=
  (depNames s).Nodup
  ∧ (∀ i ∈ s.work, i < s.nodes.length)
  ∧ (∀ p ∈ s.deps,
      (∃ (j : Nat) (n : BNode), s.nodes[j]? = some n ∧ n.name = p.1)
        ∧ u p.1 = some p.2 ∧ p.2.isExecOrDyn = true ∧ p.2.hasDyn = true)
  ∧ (∀ (i : Nat) (n : BNode), s.nodes[i]? = some n →
      n.name ∈ depNames s ∨ i ∈ s.work)

theorem buildInv_init (u : Univ) (root : GoStr) :
    buildInv u (initState root) := by
  refine ⟨List.nodup_nil, ?_, ?_, ?_⟩
  · intro i hi
    simp only [initState] at hi ⊢
    rw [List.mem_singleton] at hi
    subst hi
    simp
  · intro p hp; cases hp
  · intro i n hget
    right
    simp only [initState] at hget ⊢
    match i with
    | 0 => exact List.mem_cons_self 0 []
    | j + 1 => cases hget

theorem stepState_inv (u : Univ) (s : BState) (id : Nat) (rest : List Nat)
    (b : BinInfo) (hw : s.work = id :: rest) (hinv : buildInv u s)
    (hmem : (s.nodes[id]?.map BNode.name).getD [] ∉ depNames s)
    (hu : u ((s.nodes[id]?.map BNode.name).getD []) = some b)
    (hexec : b.isExecOrDyn = true) (hdyn : b.hasDyn = true) :
    buildInv u (stepState s id rest ((s.nodes[id]?.map BNode.name).getD []) b) := by
  obtain ⟨hnd, hwb, hdep, hnode⟩ := hinv
  have hid : id < s.nodes.length := hwb id (hw ▸ List.mem_cons_self id rest)
  have hget : s.nodes[id]? = some (s.nodes.get ⟨id, hid⟩) := List.getElem?_eq_getElem hid
  set nm := (s.nodes[id]?.map BNode.name).getD [] with hnmdef
  have hnmval : nm = (s.nodes.get ⟨id, hid⟩).name := by rw [hnmdef, hget]; rfl
  have hdneq : depNames (stepState s id rest nm b) = depNames s ++ [nm] := by
    simp [depNames, stepState]
  have hweq : (stepState s id rest nm b).work
      = (List.range b.libs.length).map (· + s.nodes.length) ++ rest := rfl
  have hlen2 : (stepState s id rest nm b).nodes.length
      = s.nodes.length + b.libs.length := by
    simp [stepState]
  refine ⟨?_, ?_, ?_, ?_⟩
  · rw [hdneq, List.nodup_append]
    refine ⟨hnd, List.nodup_singleton nm, ?_⟩
    intro a ha hb
    rw [List.mem_singleton] at hb
    exact hmem (hb ▸ ha)
  · intro i hi
    rw [hweq] at hi
    rw [hlen2]
    rcases List.mem_append.mp hi with hc | hr
    · obtain ⟨j, hj, rfl⟩ := List.mem_map.mp hc
      have := List.mem_range.mp hj
      omega
    · have := hwb i (hw ▸ List.mem_cons_of_mem id hr)
      omega
  · intro p hp
    have hp' : p ∈ s.deps ++ [(nm, b)] := hp
    rcases List.mem_append.mp hp' with hold | hnew
    · obtain ⟨⟨j, n, hj, hn⟩, hup, hie, hhd⟩ := hdep p hold
      have hjlt : j < s.nodes.length := (List.getElem?_eq_some_iff.mp hj).1
      have hjne : ¬ id = j := by
        rintro rfl
        rw [hget] at hj
        have hn2 : n = s.nodes.get ⟨id, hid⟩ := (Option.some.inj hj).symm
        apply hmem
        rw [hnmval, ← hn2, hn]
        exact List.mem_map_of_mem Prod.fst hold
      refine ⟨⟨j, n, ?_, hn⟩, hup, hie, hhd⟩
      show ((s.nodes.set id _) ++ _)[j]? = some n
      rw [List.getElem?_append_left (by rw [List.length_set]; exact hjlt)]
      rw [List.getElem?_set]
      simp only [hjne, if_false]
      exact hj
    · rw [List.mem_singleton] at hnew
      subst hnew
      refine ⟨⟨id, ⟨nm, (List.range b.libs.length).map (· + s.nodes.length)⟩,
        ?_, rfl⟩, hu, hexec, hdyn⟩
      show ((s.nodes.set id _) ++ _)[id]? = some _
      rw [List.getElem?_append_left (by rw [List.length_set]; exact hid)]
      exact List.getElem?_set_eq_of_lt _ hid
  · intro i n hget2
    have hget2' : ((s.nodes.set id
        ⟨nm, (List.range b.libs.length).map (· + s.nodes.length)⟩)
        ++ b.libs.map fun l => BNode.mk l [])[i]? = some n := hget2
    rw [hdneq, hweq]
    by_cases hi : i < s.nodes.length
    · rw [List.getElem?_append_left (by rw [List.length_set]; exact hi)] at hget2'
      by_cases hiid : id = i
      · subst hiid
        rw [List.getElem?_set_eq_of_lt _ hi] at hget2'
        left
        have hn3 : n = ⟨nm, (List.range b.libs.length).map (· + s.nodes.length)⟩ :=
          (Option.some.inj hget2').symm
        rw [hn3]
        exact List.mem_append_right _ (List.mem_singleton_self nm)
      · rw [List.getElem?_set] at hget2'
        simp only [hiid, if_false] at hget2'
        rcases hnode i n hget2' with hl | hr
        · exact Or.inl (List.mem_append_left _ hl)
        · right
          rw [hw] at hr
          rcases List.mem_cons.mp hr with he | hm
          · exact absurd he.symm hiid
          · exact List.mem_append_right _ hm
    · rw [List.getElem?_append_right (by rw [List.length_set]; omega)] at hget2'
      simp only [List.length_set] at hget2'
      have hlt : i - s.nodes.length < b.libs.length := by
        have h1 := (List.getElem?_eq_some_iff.mp hget2').1
        simpa using h1
      right
      apply List.mem_append_left
      exact List.mem_map.mpr ⟨i - s.nodes.length, List.mem_range.mpr hlt, by omega⟩

theorem buildRun_succ_nil (u : Univ) (m : Nat) (s : BState)
    (hw : s.work = []) : buildRun u (m + 1) s = .ok (some s) := by
  rw [buildRun, hw]

theorem buildRun_succ_cons (u : Univ) (m : Nat) (s : BState) (id : Nat)
    (rest : List Nat) (hw : s.work = id :: rest) :
    buildRun u (m + 1) s =
      (if (s.nodes[id]?.map BNode.name).getD [] ∈ depNames s then
        buildRun u m { s with work := rest }
      else
        match u ((s.nodes[id]?.map BNode.name).getD []) with
        | none => .error (.openFail ((s.nodes[id]?.map BNode.name).getD []))
        | some b =>
          if b.isExecOrDyn = false then
            .error (.invalidFormat ((s.nodes[id]?.map BNode.name).getD []))
          else if b.hasDyn = false then
            .error (.missingSection ((s.nodes[id]?.map BNode.name).getD []))
          else
            buildRun u m
              (stepState s id rest ((s.nodes[id]?.map BNode.name).getD []) b)) := by
  rw [buildRun, hw]

theorem buildRun_inv (u : Univ) :
    ∀ (fuel : Nat) (s s' : BState), buildInv u s →
      buildRun u fuel s = .ok (some s') →
      buildInv u s' ∧ s'.work = [] := by
  intro fuel
  induction fuel with
  | zero =>
    intro s s' _ h
    simp [buildRun] at h
  | succ m ih =>
    intro s s' hinv hrun
    cases hw : s.work with
    | nil =>
      rw [buildRun_succ_nil u m s hw] at hrun
      simp only [Except.ok.injEq, Option.some.injEq] at hrun
      subst hrun
      exact ⟨hinv, hw⟩
    | cons id rest =>
      obtain ⟨hnd, hwb, hdep, hnode⟩ := hinv
      rw [buildRun_succ_cons u m s id rest hw] at hrun
      by_cases hmem : (s.nodes[id]?.map BNode.name).getD [] ∈ depNames s
      · rw [if_pos hmem] at hrun
        apply ih _ s' _ hrun
        refine ⟨hnd, ?_, hdep, ?_⟩
        · intro i hi
          exact hwb i (hw ▸ List.mem_cons_of_mem id hi)
        · intro i n hget
          rcases hnode i n hget with h | h
          · exact Or.inl h
          · rw [hw] at h
            rcases List.mem_cons.mp h with he | hm
            · subst he
              left
              rw [hget] at hmem
              exact hmem
            · exact Or.inr hm
      · rw [if_neg hmem] at hrun
        cases hu : u ((s.nodes[id]?.map BNode.name).getD []) with
        | none => simp only [hu] at hrun; cases hrun
        | some b =>
          simp only [hu] at hrun
          by_cases hexec : b.isExecOrDyn = false
          · rw [if_pos hexec] at hrun; cases hrun
          · rw [if_neg hexec] at hrun
            by_cases hdyn : b.hasDyn = false
            · rw [if_pos hdyn] at hrun; cases hrun
            · rw [if_neg hdyn] at hrun
              have hexec' : b.isExecOrDyn = true := by
                revert hexec; cases b.isExecOrDyn <;> simp
              have hdyn' : b.hasDyn = true := by
                revert hdyn; cases b.hasDyn <;> simp
              exact ih _ s'
                (stepState_inv u s id rest b hw ⟨hnd, hwb, hdep, hnode⟩
                  hmem hu hexec' hdyn') hrun

/-- The diamond world: A needs B and C, B needs D, C needs D, D needs
nothing; every binary opens fine, is a valid image and has a dynamic
section. -/
def diamondU : Univ := fun s =>
  if s = ['A'] then some ⟨true, true, [['B'], ['C']]⟩
  else if s = ['B'] then some ⟨true, true, [['D']]⟩
  else if s = ['C'] then some ⟨true, true, [['D']]⟩
  else if s = ['D'] then some ⟨true, true, []⟩
  else none

/-- The builder's final state on the diamond world: five tree nodes (two
D occurrences) and four table entries, in processing order A, B, D, C. -/
def diamondFinal : BState :=
  ⟨[⟨['A'], [1, 2]⟩, ⟨['B'], [3]⟩, ⟨['C'], [4]⟩, ⟨['D'], []⟩, ⟨['D'], []⟩],
   [],
   [(['A'], ⟨true, true, [['B'], ['C']]⟩), (['B'], ⟨true, true, [['D']]⟩),
    (['D'], ⟨true, true, []⟩), (['C'], ⟨true, true, [['D']]⟩)]⟩

def diamondTree : DTree :=
  .mk ['A'] [.mk ['B'] [.mk ['D'] []], .mk ['C'] [.mk ['D'] []]]

/-- C2: whenever the build finishes, the deps table holds pairwise
distinct names and exactly the names occurring among the tree's node
instances — one entry per unique name however many instances exist; on
the diamond world the tree is A with subtrees B over D and C over D
(five node instances), the table has the four entries A, B, C, D, and
the fully expanded presentation tree built from it has root total 4. -/
theorem claim_C2 :
    (∀ (u : Univ) (fuel : Nat) (root : GoStr) (s' : BState),
      buildRun u fuel (initState root) = .ok (some s') →
      (depNames s').Nodup
        ∧ ∀ nm, nm ∈ depNames s'
            ↔ ∃ (j : Nat) (n : BNode), s'.nodes[j]? = some n ∧ n.name = nm)
    ∧ buildRun diamondU 10 (initState ['A']) = .ok (some diamondFinal)
    ∧ depNames diamondFinal = [['A'], ['B'], ['D'], ['C']]
    ∧ (depNames diamondFinal).length = 4
    ∧ (depNames diamondFinal).Perm [['A'], ['B'], ['C'], ['D']]
    ∧ toDTree diamondFinal.nodes 5 0 = diamondTree
    ∧ (makeDepsItems diamondTree).total = 4 := by
  refine ⟨?_, rfl, by decide, by decide, by decide, rfl, by decide⟩
  intro u fuel root s' hrun
  obtain ⟨⟨hnd, _, hdep, hnode⟩, hwork⟩ :=
    buildRun_inv u fuel (initState root) s' (buildInv_init u root) hrun
  refine ⟨hnd, ?_⟩
  intro nm
  constructor
  · intro hin
    obtain ⟨p, hp, hpeq⟩ := List.mem_map.mp hin
    obtain ⟨⟨j, n, hj, hn⟩, _, _, _⟩ := hdep p hp
    exact ⟨j, n, hj, hpeq ▸ hn⟩
  · rintro ⟨j, n, hj, rfl⟩
    rcases hnode j n hj with h | h
    · exact h
    · rw [hwork] at h
      cases h

theorem claim_C2_w :
    (depNames diamondFinal).Nodup
      ∧ ∀ nm, nm ∈ depNames diamondFinal
          ↔ ∃ (j : Nat) (n : BNode),
              diamondFinal.nodes[j]? = some n ∧ n.name = nm :=
  claim_C2.1 diamondU 10 ['A'] diamondFinal rfl

/-- C9: a failed build prints exactly the one diagnostic of its error,
exits 1 and never enters the interactive view; a finished build's table
only holds binaries that opened and had a dynamic section (so a
dynamic-section-less binary can never be part of a completed build);
and dequeuing an unprocessed node whose binary is a valid image with no
dynamic section fails the build at once with MissingSection for that
name. -/
theorem claim_C9 :
    (∀ (u : Univ) (fuel : Nat) (root : GoStr) (e : BuildErr),
      buildRun u fuel (initState root) = .error e →
      mainRun u fuel root = ⟨1, [diagMsg e], false⟩)
    ∧ (∀ (u : Univ) (fuel : Nat) (root : GoStr) (s' : BState),
      buildRun u fuel (initState root) = .ok (some s') →
      ∀ p ∈ s'.deps, u p.1 = some p.2 ∧ p.2.hasDyn = true)
    ∧ (∀ (u : Univ) (fuel : Nat) (s : BState) (id : Nat) (rest : List Nat)
        (b : BinInfo),
      s.work = id :: rest →
      (s.nodes[id]?.map BNode.name).getD [] ∉ depNames s →
      u ((s.nodes[id]?.map BNode.name).getD []) = some b →
      b.isExecOrDyn = true → b.hasDyn = false →
      buildRun u (fuel + 1) s
        = .error (.missingSection ((s.nodes[id]?.map BNode.name).getD []))) := by
  refine ⟨?_, ?_, ?_⟩
  · intro u fuel root e hrun
    rw [mainRun, hrun]
  · intro u fuel root s' hrun p hp
    obtain ⟨⟨_, _, hdep, _⟩, _⟩ :=
      buildRun_inv u fuel (initState root) s' (buildInv_init u root) hrun
    obtain ⟨_, hup, _, hhd⟩ := hdep p hp
    exact ⟨hup, hhd⟩
  · intro u fuel s id rest b hw hmem hu hexec hdyn
    rw [buildRun_succ_cons u fuel s id rest hw, if_neg hmem]
    simp only [hu]
    rw [if_neg (by rw [hexec]; exact fun h => Bool.noConfusion h),
      if_pos hdyn]

/-- A world whose root binary r is a valid image with no dynamic
section. -/
def staticU : Univ := fun s =>
  if s = ['r'] then some ⟨true, false, []⟩ else none

theorem claim_C9_w :
    buildRun staticU 3 (initState ['r'])
        = .error (.missingSection ['r'])
      ∧ mainRun staticU 3 ['r']
        = ⟨1, [diagMsg (.missingSection ['r'])], false⟩ :=
  ⟨rfl, claim_C9.1 staticU 3 ['r'] (.missingSection ['r']) rfl⟩

/-! ## Claims about the fold and expand machinery -/

theorem foldl_total_eq (l : List TItem) (a : Int) :
    l.foldl (fun x c => x + c.total + 1) a = a + childSum l := by
  induction l generalizing a with
  | nil => simp [childSum]
  | cons c cs ih =>
    rw [childSum]
    simp only [List.foldl_cons]
    rw [ih, ih]
    ring

theorem invBs_mem : ∀ (cs : List TItem) (c : TItem),
    invBs cs = true → c ∈ cs → invB c = true := by
  intro cs
  induction cs with
  | nil => intro c _ h; cases h
  | cons d ds ih =>
    intro c hinv hc
    rw [invBs] at hinv
    rcases List.mem_cons.mp hc with rfl | hm
    · exact (Bool.and_eq_true_iff.mp hinv).1
    · exact ih c (Bool.and_eq_true_iff.mp hinv).2 hm

theorem invB_getAt : ∀ (p : List Nat) (t x : TItem),
    invB t = true → getAt t p = some x → invB x = true := by
  intro p
  induction p with
  | nil =>
    intro t x h hg
    have ht : t = x := Option.some.inj hg
    exact ht ▸ h
  | cons i p ih =>
    intro t x h hg
    cases t with
    | mk f tot cs =>
      rw [getAt] at hg
      cases hci : cs[i]? with
      | none =>
        simp only [TItem.children, hci] at hg
        exact Option.noConfusion hg
      | some c =>
        simp only [TItem.children, hci] at hg
        have hcm : c ∈ cs := List.getElem?_mem hci
        have hinvc : invB c = true := by
          rw [invB] at h
          exact invBs_mem cs c (Bool.and_eq_true_iff.mp h).2 hcm
        exact ih c x hinvc hg

theorem toggle_toggle_at : ∀ (p : List Nat) (t x : TItem),
    getAt t p = some x → x.children ≠ [] →
    (x.folded = true → x.total = 0) →
    (x.folded = false → x.total = childSum x.children) →
    ((toggleAt (toggleAt t p).1 p).1).total = t.total
      ∧ (toggleAt (toggleAt t p).1 p).2 = -(toggleAt t p).2 := by
  intro p
  induction p with
  | nil =>
    intro t x hg hc h0 h1
    have ht : t = x := Option.some.inj hg
    subst ht
    cases t with
    | mk f tot cs =>
      cases cs with
      | nil => simp [TItem.children] at hc
      | cons c rest =>
        cases f with
        | false =>
          have htot : tot = childSum (c :: rest) := by
            simpa [TItem.folded, TItem.total, TItem.children] using h1
          constructor
          · show (c :: rest).foldl (fun a x => a + x.total + 1) 0 = tot
            rw [foldl_total_eq]
            omega
          · show (c :: rest).foldl (fun a x => a + x.total + 1) 0 = - -tot
            rw [foldl_total_eq]
            omega
        | true =>
          have htot : tot = 0 := by
            simpa [TItem.folded, TItem.total] using h0
          subst htot
          exact ⟨rfl, rfl⟩
  | cons i p ih =>
    intro t x hg hc h0 h1
    cases t with
    | mk f tot cs =>
      rw [getAt] at hg
      cases hci : cs[i]? with
      | none =>
        simp only [TItem.children, hci] at hg
        exact Option.noConfusion hg
      | some c =>
        simp only [TItem.children, hci] at hg
        have hlen : i < cs.length := (List.getElem?_eq_some_iff.mp hci).1
        have e1 : toggleAt (TItem.mk f tot cs) (i :: p)
            = (TItem.mk f (tot + (toggleAt c p).2) (cs.set i (toggleAt c p).1),
               (toggleAt c p).2) := by
          simp only [toggleAt, hci]
        have hset : (cs.set i (toggleAt c p).1)[i]? = some (toggleAt c p).1 :=
          List.getElem?_set_eq_of_lt _ hlen
        have e2 : toggleAt (TItem.mk f (tot + (toggleAt c p).2)
              (cs.set i (toggleAt c p).1)) (i :: p)
            = (TItem.mk f
                (tot + (toggleAt c p).2 + (toggleAt (toggleAt c p).1 p).2)
                ((cs.set i (toggleAt c p).1).set i
                  (toggleAt (toggleAt c p).1 p).1),
               (toggleAt (toggleAt c p).1 p).2) := by
          simp only [toggleAt, hset]
        have hd := (ih c x hg hc h0 h1).2
        rw [e1]
        constructor
        · show (toggleAt (TItem.mk f (tot + (toggleAt c p).2)
              (cs.set i (toggleAt c p).1)) (i :: p)).1.total = tot
          rw [e2]
          show tot + (toggleAt c p).2 + (toggleAt (toggleAt c p).1 p).2 = tot
          rw [hd]
          omega
        · show (toggleAt (TItem.mk f (tot + (toggleAt c p).2)
              (cs.set i (toggleAt c p).1)) (i :: p)).2 = -(toggleAt c p).2
          rw [e2]
          exact hd

/-- C6: toggling a tree item with at least one child twice restores the
root's visible-row total, in any tree state satisfying the
visible-row-total invariant. -/
theorem claim_C6 (t : TItem) (p : List Nat) (x : TItem)
    (hg : getAt t p = some x) (hc : x.children ≠ [])
    (hinv : invB t = true) :
    ((toggleAt (toggleAt t p).1 p).1).total = t.total := by
  have hx := invB_getAt p t x hinv hg
  refine (toggle_toggle_at p t x hg hc ?_ ?_).1
  · intro hf
    cases x with
    | mk f tot cs =>
      rw [invB] at hx
      have hhead := (Bool.and_eq_true_iff.mp hx).1
      simp only [TItem.folded] at hf
      rw [hf] at hhead
      simpa [TItem.total] using hhead
  · intro hf
    cases x with
    | mk f tot cs =>
      rw [invB] at hx
      have hhead := (Bool.and_eq_true_iff.mp hx).1
      simp only [TItem.folded] at hf
      rw [hf] at hhead
      simpa [TItem.total, TItem.children] using hhead

theorem claim_C6_w :
    invB (TItem.mk false 3 [.mk false 1 [.mk false 0 []], .mk false 0 []])
        = true
      ∧ ((toggleAt (toggleAt
          (TItem.mk false 3 [.mk false 1 [.mk false 0 []], .mk false 0 []])
          [0]).1 [0]).1).total
        = (TItem.mk false 3 [.mk false 1 [.mk false 0 []],
            .mk false 0 []]).total :=
  ⟨by decide,
    claim_C6 (TItem.mk false 3 [.mk false 1 [.mk false 0 []], .mk false 0 []])
      [0] (.mk false 1 [.mk false 0 []]) rfl
      (by simp [TItem.children]) (by decide)⟩
/-! ## Claims about the visible-row traversal -/

theorem visibleB_nil (t : TItem) : visibleB t [] = true := by
  cases t
  rfl

theorem getAt_cons_some (t : TItem) (i : Nat) (p : List Nat) (c : TItem)
    (hci : t.children[i]? = some c) : getAt t (i :: p) = getAt c p := by
  rw [getAt]
  simp only [hci]

theorem getAt_cons_none (t : TItem) (i : Nat) (p : List Nat)
    (hci : t.children[i]? = none) : getAt t (i :: p) = none := by
  rw [getAt]
  simp only [hci]

theorem prevItem_rev_zero (root : TItem) (pos rp : List Nat)
    (h : pos.reverse = 0 :: rp) : prevItem root pos = some rp.reverse := by
  rw [prevItem, h]

theorem prevItem_rev_succ (root : TItem) (pos rp : List Nat) (j : Nat)
    (s : TItem) (h : pos.reverse = (j + 1) :: rp)
    (hs : getAt root (rp.reverse ++ [j]) = some s) :
    prevItem root pos = some ((rp.reverse ++ [j]) ++ lastVis s) := by
  rw [prevItem, h]
  simp only [hs]

theorem climbNextRev_cons_lt (root : TItem) (i : Nat) (rp : List Nat)
    (par : TItem) (hp : getAt root rp.reverse = some par)
    (hlt : i + 1 < par.children.length) :
    climbNextRev root (i :: rp) = some (rp.reverse ++ [i + 1]) := by
  rw [climbNextRev]
  simp only [hp]
  rw [if_pos hlt]

theorem climbNextRev_cons_ge (root : TItem) (i : Nat) (rp : List Nat)
    (par : TItem) (hp : getAt root rp.reverse = some par)
    (hlt : ¬ i + 1 < par.children.length) :
    climbNextRev root (i :: rp) = climbNextRev root rp := by
  rw [climbNextRev]
  simp only [hp]
  rw [if_neg hlt]

theorem nextItem_leaf (root : TItem) (pos : List Nat) (x : TItem)
    (hx : getAt root pos = some x) (hch : x.children = []) :
    nextItem root pos = climbNextRev root pos.reverse := by
  rw [nextItem]
  simp only [hx, hch]

theorem nextItem_folded (root : TItem) (pos : List Nat) (x : TItem)
    (hx : getAt root pos = some x) (a : TItem) (as : List TItem)
    (hch : x.children = a :: as) (hf : x.folded = true) :
    nextItem root pos = climbNextRev root pos.reverse := by
  rw [nextItem]
  simp only [hx, hch, hf]
  simp

theorem nextItem_open (root : TItem) (pos : List Nat) (x : TItem)
    (hx : getAt root pos = some x) (a : TItem) (as : List TItem)
    (hch : x.children = a :: as) (hf : x.folded = false) :
    nextItem root pos = some (pos ++ [0]) := by
  rw [nextItem]
  simp only [hx, hch, hf]
  rw [if_neg (by simp)]

theorem getAt_append : ∀ (p q : List Nat) (t : TItem),
    getAt t (p ++ q) = (getAt t p).bind (fun y => getAt y q) := by
  intro p
  induction p with
  | nil => intro q t; rfl
  | cons i p ih =>
    intro q t
    show getAt t (i :: (p ++ q)) = _
    cases hci : t.children[i]? with
    | none => rw [getAt_cons_none t i (p ++ q) hci, getAt_cons_none t i p hci]; rfl
    | some c =>
      rw [getAt_cons_some t i (p ++ q) c hci, getAt_cons_some t i p c hci]
      exact ih q c

theorem visibleB_split : ∀ (p q : List Nat) (t : TItem),
    visibleB t (p ++ q) = true →
    ∃ y, getAt t p = some y ∧ visibleB t p = true ∧ visibleB y q = true := by
  intro p
  induction p with
  | nil =>
    intro q t h
    exact ⟨t, rfl, visibleB_nil t, h⟩
  | cons i p ih =>
    intro q t h
    cases t with
    | mk f tot cs =>
      rw [show (i :: p) ++ q = i :: (p ++ q) from rfl] at h
      rw [visibleB] at h
      cases hci : cs[i]? with
      | none => simp only [hci] at h; cases h
      | some c =>
        simp only [hci] at h
        have hb := Bool.and_eq_true_iff.mp h
        obtain ⟨y, hy, hv, hvq⟩ := ih q c hb.2
        refine ⟨y, ?_, ?_, hvq⟩
        · rw [getAt_cons_some (TItem.mk f tot cs) i p c (by simpa [TItem.children] using hci)]
          exact hy
        · rw [visibleB]
          simp only [hci, hb.1, hv]
          rfl

theorem lastVisAux_eq : ∀ (rest : List TItem) (i : Nat) (c : TItem),
    lastVisAux i (c :: rest)
      = (i + rest.length) :: lastVis ((c :: rest).getLast (by simp)) := by
  intro rest
  induction rest with
  | nil => intro i c; simp [lastVisAux]
  | cons c2 rest ih =>
    intro i c
    rw [lastVisAux]
    rw [ih (i + 1) c2]
    simp [List.getLast]
    omega

theorem getLast_getElem? (c : TItem) (rest : List TItem) :
    (c :: rest)[rest.length]? = some ((c :: rest).getLast (by simp)) := by
  rw [List.getLast_eq_getElem]
  rw [List.getElem?_eq_getElem (by simp)]
  simp

theorem lastVis_true (tot : Int) (cs : List TItem) :
    lastVis (.mk true tot cs) = [] := by
  rw [lastVis]
  simp

theorem lastVis_nilc (f : Bool) (tot : Int) :
    lastVis (.mk f tot []) = [] := by
  rw [lastVis]
  cases f <;> simp [lastVisAux]

theorem lastVis_cons_false (tot : Int) (c : TItem) (rest : List TItem) :
    lastVis (.mk false tot (c :: rest))
      = rest.length :: lastVis ((c :: rest).getLast (by simp)) := by
  rw [lastVis]
  simp only [Bool.false_eq_true, if_false]
  rw [lastVisAux_eq]
  simp

theorem sizeOf_child_lt (f : Bool) (tot : Int) (cs : List TItem) (c : TItem)
    (hc : c ∈ cs) : sizeOf c < sizeOf (TItem.mk f tot cs) := by
  have h1 := List.sizeOf_lt_of_mem hc
  have h2 : sizeOf (TItem.mk f tot cs)
      = 1 + sizeOf f + sizeOf tot + sizeOf cs := by simp
  omega

theorem lastVis_getAt : ∀ (k : Nat) (t : TItem), sizeOf t ≤ k →
    ∃ u, getAt t (lastVis t) = some u
      ∧ (u.children = [] ∨ u.folded = true) := by
  intro k
  induction k using Nat.strong_induction_on with
  | _ k ih =>
    intro t hk
    cases t with
    | mk f tot cs =>
      cases f with
      | true => exact ⟨.mk true tot cs, by rw [lastVis_true]; rfl, Or.inr rfl⟩
      | false =>
        cases cs with
        | nil => exact ⟨.mk false tot [], by rw [lastVis_nilc]; rfl, Or.inl rfl⟩
        | cons c rest =>
          have hg : ((c :: rest).getLast (by simp)) ∈ c :: rest :=
            List.getLast_mem (by simp)
          have hsz : sizeOf ((c :: rest).getLast
              (show c :: rest ≠ [] by simp)) < k := by
            have := sizeOf_child_lt false tot (c :: rest) _ hg
            omega
          obtain ⟨u, hu, hok⟩ := ih (sizeOf ((c :: rest).getLast (by simp)))
            hsz ((c :: rest).getLast (by simp)) le_rfl
          refine ⟨u, ?_, hok⟩
          rw [lastVis_cons_false]
          rw [getAt_cons_some (TItem.mk false tot (c :: rest)) rest.length
            (lastVis ((c :: rest).getLast (by simp)))
            ((c :: rest).getLast (by simp))
            (by simpa [TItem.children] using getLast_getElem? c rest)]
          exact hu

theorem climb_lastVis : ∀ (k : Nat) (s root : TItem) (pos : List Nat),
    sizeOf s ≤ k → getAt root pos = some s →
    climbNextRev root ((pos ++ lastVis s).reverse)
      = climbNextRev root pos.reverse := by
  intro k
  induction k using Nat.strong_induction_on with
  | _ k ih =>
    intro s root pos hk hpos
    cases s with
    | mk f tot cs =>
      cases f with
      | true => rw [lastVis_true, List.append_nil]
      | false =>
        cases cs with
        | nil => rw [lastVis_nilc, List.append_nil]
        | cons c rest =>
          have hgl : getAt root (pos ++ [rest.length])
              = some ((c :: rest).getLast (by simp)) := by
            rw [getAt_append, hpos]
            show getAt (TItem.mk false tot (c :: rest)) [rest.length] = _
            rw [getAt_cons_some (TItem.mk false tot (c :: rest)) rest.length []
              ((c :: rest).getLast (by simp))
              (by simpa [TItem.children] using getLast_getElem? c rest)]
            rfl
          have hsz : sizeOf ((c :: rest).getLast
              (show c :: rest ≠ [] by simp)) < k := by
            have := sizeOf_child_lt false tot (c :: rest) _
              (List.getLast_mem (show c :: rest ≠ [] by simp))
            omega
          have hih := ih (sizeOf ((c :: rest).getLast (by simp))) hsz
            ((c :: rest).getLast (by simp)) root (pos ++ [rest.length])
            le_rfl hgl
          rw [lastVis_cons_false]
          rw [show pos ++ rest.length :: lastVis ((c :: rest).getLast (by simp))
              = (pos ++ [rest.length]) ++ lastVis ((c :: rest).getLast (by simp))
            from by simp]
          rw [hih]
          have hrr : (pos ++ [rest.length]).reverse
              = rest.length :: pos.reverse := by simp
          rw [hrr]
          rw [climbNextRev_cons_ge root rest.length pos.reverse
            (TItem.mk false tot (c :: rest))
            (by rw [List.reverse_reverse]; exact hpos)
            (by simp [TItem.children])]

theorem climb_prev (root : TItem) : ∀ (pos : List Nat) (y : TItem) (q : List Nat),
    getAt root pos = some y → visibleB root pos = true →
    climbNextRev root pos.reverse = some q →
    prevItem root q = some (pos ++ lastVis y) := by
  intro pos
  induction pos using List.reverseRecOn with
  | nil =>
    intro y q _ _ hclimb
    cases hclimb
  | append_singleton par i ihp =>
    intro y q hy hvis hclimb
    obtain ⟨P, hP, hvispar, hvis1⟩ := visibleB_split par [i] root hvis
    cases P with
    | mk fP tP csP =>
      rw [visibleB] at hvis1
      cases hci : csP[i]? with
      | none => simp only [hci] at hvis1; cases hvis1
      | some cy =>
        simp only [hci] at hvis1
        have hb := Bool.and_eq_true_iff.mp hvis1
        have hfP : fP = false := by
          cases fP
          · rfl
          · cases hb.1
        have hcy : cy = y := by
          have hh := getAt_append par [i] root
          rw [hy, hP] at hh
          simp only [Option.some_bind] at hh
          rw [getAt_cons_some (TItem.mk fP tP csP) i [] cy
            (by simpa [TItem.children] using hci)] at hh
          exact Option.some.inj hh.symm
        subst hcy
        have hyi : csP[i]? = some cy := hci
        have hilt : i < csP.length := (List.getElem?_eq_some_iff.mp hyi).1
        have hrev : (par ++ [i]).reverse = i :: par.reverse := by simp
        rw [hrev] at hclimb
        by_cases hcmp : i + 1 < csP.length
        · rw [climbNextRev_cons_lt root i par.reverse (TItem.mk fP tP csP)
            (by rw [List.reverse_reverse]; exact hP)
            (by simpa [TItem.children] using hcmp)] at hclimb
          rw [List.reverse_reverse] at hclimb
          have hq : q = par ++ [i + 1] := (Option.some.inj hclimb).symm
          subst hq
          have hpr := prevItem_rev_succ root (par ++ [i + 1]) par.reverse i cy
            (by simp) (by rw [List.reverse_reverse]; exact hy)
          rw [List.reverse_reverse] at hpr
          exact hpr
        · rw [climbNextRev_cons_ge root i par.reverse (TItem.mk fP tP csP)
            (by rw [List.reverse_reverse]; exact hP)
            (by simpa [TItem.children] using hcmp)] at hclimb
          have hihres := ihp (TItem.mk fP tP csP) q hP hvispar hclimb
          have hlvP : lastVis (TItem.mk fP tP csP) = i :: lastVis cy := by
            cases csP with
            | nil => cases hilt
            | cons c0 rest0 =>
              have hieq : i = rest0.length := by
                simp only [List.length_cons] at hilt hcmp
                omega
              have hglast : (c0 :: rest0).getLast (by simp) = cy := by
                have h1 := getLast_getElem? c0 rest0
                rw [← hieq] at h1
                rw [hyi] at h1
                exact (Option.some.inj h1).symm
              rw [hfP, lastVis_cons_false]
              rw [hglast, hieq]
          rw [hihres, hlvP]
          simp

/-- C7: for a fixed fold state, on visible rows the two traversals are
mutually inverse — prevItem of any visible row other than the first
(the root) exists and nextItem takes it back, and prevItem takes
nextItem of any visible row back, whenever nextItem exists (the row is
not the last). -/
theorem claim_C7 (root : TItem) (pos : List Nat)
    (hvis : visibleB root pos = true) :
    (pos ≠ [] → ∃ q, prevItem root pos = some q ∧ nextItem root q = some pos)
    ∧ (∀ q, nextItem root pos = some q → prevItem root q = some pos) := by
  constructor
  · intro hne
    rcases List.eq_nil_or_concat pos with rfl | ⟨par, j, hconc⟩
    · exact absurd rfl hne
    · rw [show par.concat j = par ++ [j] from List.concat_eq_append par j] at hconc
      subst hconc
      obtain ⟨P, hP, hvispar, hvis1⟩ := visibleB_split par [j] root hvis
      cases P with
      | mk fP tP csP =>
        rw [visibleB] at hvis1
        cases hci : csP[j]? with
        | none => simp only [hci] at hvis1; cases hvis1
        | some cy =>
          simp only [hci] at hvis1
          have hb := Bool.and_eq_true_iff.mp hvis1
          have hfP : fP = false := by
            cases fP
            · rfl
            · cases hb.1
          have hjlt : j < csP.length := (List.getElem?_eq_some_iff.mp hci).1
          cases j with
          | zero =>
            refine ⟨par, ?_, ?_⟩
            · exact prevItem_rev_zero root (par ++ [0]) par.reverse (by simp)
                |>.trans (by rw [List.reverse_reverse])
            · cases csP with
              | nil => cases hjlt
              | cons c0 rest0 =>
                exact nextItem_open root par (TItem.mk fP tP (c0 :: rest0))
                  hP c0 rest0 rfl hfP
          | succ i =>
            have hsib : i < csP.length := by omega
            have hsibval : csP[i]? = some (csP.get ⟨i, hsib⟩) :=
              List.getElem?_eq_getElem hsib
            have hsibget : getAt root (par ++ [i]) = some (csP.get ⟨i, hsib⟩) := by
              rw [getAt_append, hP]
              show getAt (TItem.mk fP tP csP) [i] = _
              rw [getAt_cons_some (TItem.mk fP tP csP) i [] (csP.get ⟨i, hsib⟩)
                (by simp only [TItem.children]; exact hsibval)]
              rfl
            refine ⟨(par ++ [i]) ++ lastVis (csP.get ⟨i, hsib⟩), ?_, ?_⟩
            · have hpr := prevItem_rev_succ root (par ++ [i + 1]) par.reverse i
                (csP.get ⟨i, hsib⟩) (by simp)
                (by rw [List.reverse_reverse]; exact hsibget)
              rw [List.reverse_reverse] at hpr
              exact hpr
            · obtain ⟨u, hu, huok⟩ :=
                lastVis_getAt (sizeOf (csP.get ⟨i, hsib⟩)) (csP.get ⟨i, hsib⟩) le_rfl
              have hgu : getAt root ((par ++ [i]) ++ lastVis (csP.get ⟨i, hsib⟩))
                  = some u := by
                rw [getAt_append, hsibget]
                exact hu
              have hclimb := climb_lastVis (sizeOf (csP.get ⟨i, hsib⟩))
                (csP.get ⟨i, hsib⟩) root (par ++ [i]) le_rfl hsibget
              have hcfin : climbNextRev root ((par ++ [i]).reverse)
                  = some (par ++ [i + 1]) := by
                have hr2 : (par ++ [i]).reverse = i :: par.reverse := by simp
                rw [hr2]
                rw [climbNextRev_cons_lt root i par.reverse
                  (TItem.mk fP tP csP)
                  (by rw [List.reverse_reverse]; exact hP)
                  (by simpa [TItem.children] using
                    (show i + 1 < csP.length from hjlt))]
                rw [List.reverse_reverse]
              rcases huok with hch | hfo
              · rw [nextItem_leaf root _ u hgu hch, hclimb, hcfin]
              · cases hcu : u.children with
                | nil => rw [nextItem_leaf root _ u hgu hcu, hclimb, hcfin]
                | cons a as =>
                  rw [nextItem_folded root _ u hgu a as hcu hfo, hclimb, hcfin]
  · intro q hnext
    cases hx : getAt root pos with
    | none => rw [nextItem, hx] at hnext; cases hnext
    | some x =>
      cases hcx : x.children with
      | nil =>
        rw [nextItem_leaf root pos x hx hcx] at hnext
        have hres := climb_prev root pos x q hx hvis hnext
        have hl0 : lastVis x = [] := by
          cases x with
          | mk f tot cs =>
            simp only [TItem.children] at hcx
            subst hcx
            cases f
            · exact lastVis_nilc false tot
            · exact lastVis_true tot []
        rw [hl0, List.append_nil] at hres
        exact hres
      | cons a as =>
        cases hfx : x.folded with
        | true =>
          rw [nextItem_folded root pos x hx a as hcx hfx] at hnext
          have hres := climb_prev root pos x q hx hvis hnext
          have hl0 : lastVis x = [] := by
            cases x with
            | mk f tot cs =>
              simp only [TItem.folded] at hfx
              subst hfx
              exact lastVis_true tot cs
          rw [hl0, List.append_nil] at hres
          exact hres
        | false =>
          rw [nextItem_open root pos x hx a as hcx hfx] at hnext
          have hq : q = pos ++ [0] := (Option.some.inj hnext).symm
          subst hq
          exact prevItem_rev_zero root (pos ++ [0]) pos.reverse (by simp)
            |>.trans (by rw [List.reverse_reverse])
theorem claim_C7_w :
    (∃ q, prevItem
        (TItem.mk false 4 [.mk false 1 [.mk false 0 []], .mk true 0 [.mk false 0 []]])
        [1] = some q
      ∧ nextItem
        (TItem.mk false 4 [.mk false 1 [.mk false 0 []], .mk true 0 [.mk false 0 []]])
        q = some [1])
    ∧ prevItem
        (TItem.mk false 4 [.mk false 1 [.mk false 0 []], .mk true 0 [.mk false 0 []]])
        [0, 0] = some [0] :=
  ⟨(claim_C7 (TItem.mk false 4 [.mk false 1 [.mk false 0 []],
      .mk true 0 [.mk false 0 []]]) [1] (by decide)).1 (by decide),
   (claim_C7 (TItem.mk false 4 [.mk false 1 [.mk false 0 []],
      .mk true 0 [.mk false 0 []]]) [0] (by decide)).2 [0, 0] (by decide)⟩

end ElfTree
